import Mathlib

/-!
Verification of the dynamic-array container `SimpleVector` (file
`simple-vector/simple_vector.h`) against its natural-language specification.

Modelling conventions (shallow embedding):
* `size_t` is modelled as `Nat` (the spec never relies on wrap-around).
* The owned raw buffer `std::unique_ptr<Type[]> items_` is modelled as a
  `List α` whose length is the number of slots actually allocated.
  `std::make_unique<Type[]>(n)` value-initialises all `n` slots, modelled as
  `List.replicate n default` for an `Inhabited` element type.
* C++ exceptions (`std::out_of_range`) are modelled with `Except String`.
  Operations that may throw return the state of the object after the call
  together with the `Except` result; the source throws before any mutation,
  which the model reflects by returning the input state in the error branch.
* Copy and move overloads of `PushBack`/`Insert` differ in C++ only in
  whether they copy or move the elements; under value semantics both produce
  the same element contents, so each pair is modelled by one function.
* Object identity (needed for the deep-copy-isolation property) is modelled
  separately by a heap of buffers indexed by allocation order; see `HVec`.
-/

structure SimpleVector (α : Type) where
  size : Nat
  capacity : Nat
  items : List α
  deriving Repr, DecidableEq

namespace SimpleVector

variable {α : Type}

/-- The logically present elements: the first `size` slots of the buffer. -/
def elems (v : SimpleVector α) : List α := v.items.take v.size

/-- Well-formedness of a vector state: the size does not exceed the
capacity and the buffer really holds `capacity` allocated slots. -/
def wf (v : SimpleVector α) : Prop :=
  v.size ≤ v.capacity ∧ v.items.length = v.capacity

instance (v : SimpleVector α) : Decidable (wf v) := by
  unfold wf; infer_instance

/-- `SimpleVector() noexcept = default;` — size 0, capacity 0, null buffer. -/
def mkDefault : SimpleVector α := ⟨0, 0, []⟩

/-- `SimpleVector(ReserveProxyObj reserve)` — size 0, capacity `k`, buffer of
`k` value-initialised slots. -/
def mkReserveHint [Inhabited α] (k : Nat) : SimpleVector α :=
  ⟨0, k, List.replicate k default⟩

/-- `SimpleVector(size_t size)` — for positive `n`: size = capacity = `n`,
buffer of `n` slots filled with the default value; for `n = 0` the body is
skipped and the object stays in the default state. -/
def mkSized [Inhabited α] (n : Nat) : SimpleVector α :=
  if 0 < n then ⟨n, n, List.replicate n default⟩ else mkDefault

/-- `SimpleVector(size_t size, const Type& value)` — for positive `n`:
size = capacity = `n`, every slot assigned a copy of `value`. -/
def mkFilled [Inhabited α] (n : Nat) (value : α) : SimpleVector α :=
  if 0 < n then ⟨n, n, List.replicate n value⟩ else mkDefault

/-- `SimpleVector(std::initializer_list<Type> init)` — size = capacity =
length of the literal, elements copied in order. -/
def mkFromList (l : List α) : SimpleVector α := ⟨l.length, l.length, l⟩

/-- `GetSize()` accessor. -/
def GetSize (v : SimpleVector α) : Nat := v.size

/-- `GetCapacity()` accessor. -/
def GetCapacity (v : SimpleVector α) : Nat := v.capacity

/-- `IsEmpty()` accessor: `size_ == 0`. -/
def IsEmpty (v : SimpleVector α) : Bool := v.size = 0

/-- `Clear() noexcept` — `size_ = 0;`, capacity and buffer untouched. -/
def Clear (v : SimpleVector α) : SimpleVector α := { v with size := 0 }

/-- Move construction: the new object takes over size, capacity and buffer;
the fields of the source are zeroed and its buffer pointer becomes null.
Returns (constructed object, moved-from source). -/
def moveConstruct (other : SimpleVector α) : SimpleVector α × SimpleVector α :=
  (⟨other.size, other.capacity, other.items⟩, ⟨0, 0, []⟩)

/-- Move assignment `operator=(SimpleVector&& rhs)` for two distinct objects
(the `this == &rhs` self-move case is an identity and is outside this model):
the target first resets itself, then takes over the fields and buffer of `rhs`,
and `rhs` is zeroed. Returns (assigned-to object, moved-from source). -/
def moveAssign (self rhs : SimpleVector α) : SimpleVector α × SimpleVector α :=
  let _ := self
  (⟨rhs.size, rhs.capacity, rhs.items⟩, ⟨0, 0, []⟩)

/-- Copy construction: copies the size and capacity fields, allocates a fresh
buffer of `capacity_` value-initialised slots and copies the first `size_`
elements of the source into it. -/
def copyConstruct [Inhabited α] (other : SimpleVector α) : SimpleVector α :=
  ⟨other.size, other.capacity,
   other.items.take other.size ++ List.replicate (other.capacity - other.size) default⟩

/-- Copy assignment `operator=(const SimpleVector& rhs)` for two distinct
objects. If `rhs` is empty it clears the target. Otherwise it builds the
temporary `SimpleVector<Type> arr_ptr(rhs.size_)` (whose buffer holds exactly
`rhs.size_` slots), copies the elements of `rhs` into it, overwrites the
field `capacity_` of the temporary with `rhs.capacity_` WITHOUT reallocating, and
swaps the temporary into the target. The resulting buffer therefore has
`rhs.size_` slots even though the capacity field reports `rhs.capacity_`. -/
def copyAssign [Inhabited α] (self rhs : SimpleVector α) : SimpleVector α :=
  if IsEmpty rhs then Clear self
  else ⟨rhs.size, rhs.capacity, elems rhs⟩

/-- `Reserve(new_capacity)` — when growing: allocate `new_capacity`
value-initialised slots, move the first `size_` elements across, adopt the
new buffer and record the new capacity; otherwise a no-op. -/
def Reserve [Inhabited α] (v : SimpleVector α) (newCapacity : Nat) : SimpleVector α :=
  if newCapacity > v.capacity then
    { v with capacity := newCapacity,
             items := v.items.take v.size ++
                      List.replicate (newCapacity - v.size) default }
  else v

/-- `PushBack(item)` (both overloads): when full, allocate a buffer of
`capacity_ ? capacity_*2 : 1` value-initialised slots and transfer the first
`size_` elements; then write `item` into slot `size_` and increment the size. -/
def PushBack [Inhabited α] (v : SimpleVector α) (item : α) : SimpleVector α :=
  if v.size = v.capacity then
    let newCapacity := if v.capacity ≠ 0 then v.capacity * 2 else 1
    let newItems := v.items.take v.size ++
                    List.replicate (newCapacity - v.size) default
    { size := v.size + 1, capacity := newCapacity,
      items := newItems.set v.size item }
  else
    { v with size := v.size + 1, items := v.items.set v.size item }

/-- The shifting loop of the non-growth branch of `Insert`:
`for (size_t i = size_; i > index; --i) items_[i] = std::move(items_[i-1]);`
called with `i = size_`. -/
def shiftRightLoop [Inhabited α] (b : List α) (index i : Nat) : List α :=
  if _h : index < i then
    shiftRightLoop (b.set i (b.getD (i - 1) default)) index (i - 1)
  else b
  termination_by i

/-- `Insert(pos, value)` (both overloads) with `index = pos - begin()`.
Positions outside `[begin(), end()]` throw before any mutation. When full,
a fresh buffer of doubled (or 1) capacity is value-initialised and filled in
one pass: slots `[0, index)` receive the old elements before the gap, slot
`index` the new value, slots `[index+1, size_+1)` the old elements from
`index` on, and the remaining slots keep their initial default value.
Otherwise elements `[index, size_)` are shifted one slot rightward from the
back forward and the value is written at `index`. The size is incremented
and the position `index` of the inserted element is returned. -/
def Insert [Inhabited α] (v : SimpleVector α) (index : Nat) (value : α) :
    SimpleVector α × Except String Nat :=
  if index > v.size then
    (v, Except.error "Insert: position out of range")
  else if v.size = v.capacity then
    let newCapacity := if v.capacity ≠ 0 then v.capacity * 2 else 1
    let newItems := v.items.take index ++ [value] ++
                    (v.items.drop index).take (v.size - index) ++
                    List.replicate (newCapacity - v.size - 1) default
    ({ size := v.size + 1, capacity := newCapacity, items := newItems },
     Except.ok index)
  else
    ({ v with size := v.size + 1,
              items := (shiftRightLoop v.items index v.size).set index value },
     Except.ok index)

/-- `PopBack() noexcept` — `if (size_ == 0) return; --size_;`. -/
def PopBack (v : SimpleVector α) : SimpleVector α :=
  if v.size = 0 then v else { v with size := v.size - 1 }

/-- The shifting loop of `Erase`:
`for (size_t i = index; i < size_ - 1; ++i) items_[i] = std::move(items_[i+1]);`
with `stop = size_ - 1` and starting at `i = index`. -/
def shiftLeftLoop [Inhabited α] (b : List α) (stop i : Nat) : List α :=
  if _h : i < stop then
    shiftLeftLoop (b.set i (b.getD (i + 1) default)) stop (i + 1)
  else b
  termination_by stop - i

/-- `Erase(pos)` with `index = pos - begin()`. Positions outside
`[begin(), end())` throw before any mutation; otherwise elements
`[index+1, size_)` are shifted one slot leftward (left to right), the size is
decremented and the position `index` is returned. -/
def Erase [Inhabited α] (v : SimpleVector α) (index : Nat) :
    SimpleVector α × Except String Nat :=
  if index ≥ v.size then
    (v, Except.error "Index out of range")
  else
    ({ v with size := v.size - 1,
              items := shiftLeftLoop v.items (v.size - 1) index },
     Except.ok index)

/-- `swap(other) noexcept` — exchanges size, capacity and buffer. -/
def swap (a b : SimpleVector α) : SimpleVector α × SimpleVector α := (b, a)

/-- `At(index)` — throws when `index >= size_`, otherwise yields the element. -/
def At [Inhabited α] (v : SimpleVector α) (index : Nat) : Except String α :=
  if index ≥ v.size then Except.error "Index out of range"
  else Except.ok (v.items.getD index default)

/-- The filling loop of `Resize`:
`for (size_t i = size_; i < new_size; ++i) items_[i] = Type();`. -/
def fillLoop [Inhabited α] (b : List α) (stop i : Nat) : List α :=
  if _h : i < stop then fillLoop (b.set i default) stop (i + 1)
  else b
  termination_by stop - i

/-- `Resize(new_size)` — shrink by decrementing size only; grow by reserving
when needed and default-constructing the new tail. -/
def Resize [Inhabited α] (v : SimpleVector α) (newSize : Nat) : SimpleVector α :=
  if newSize < v.size then { v with size := newSize }
  else if newSize > v.size then
    let v1 := if newSize > v.capacity then Reserve v newSize else v
    { v1 with size := newSize, items := fillLoop v1.items newSize v.size }
  else v

end SimpleVector

section Comparisons

open SimpleVector

variable {α : Type}

/-- `std::equal(first1, last1, first2)`: pairwise scan over the first range
(the caller guarantees the second range is at least as long; `operator==`
ensures this by comparing sizes first). -/
def stdEqual [DecidableEq α] : List α → List α → Bool
  | [], _ => true
  | _ :: _, [] => true
  | x :: xs, y :: ys => if x = y then stdEqual xs ys else false

/-- `operator==` — sizes first, then an element-wise equality scan. -/
def eqOp [DecidableEq α] (a b : SimpleVector α) : Bool :=
  if a.GetSize ≠ b.GetSize then false else stdEqual a.elems b.elems

/-- `operator!=` — `!(lhs == rhs)`. -/
def neOp [DecidableEq α] (a b : SimpleVector α) : Bool := !eqOp a b

/-- `std::lexicographical_compare(first1, last1, first2, last2)` with `<`:
walk both ranges; an element decides as soon as one side is strictly
smaller; the first range exhausted strictly earlier decides `true`. -/
def lexCompare [LinearOrder α] : List α → List α → Bool
  | _, [] => false
  | [], _ :: _ => true
  | x :: xs, y :: ys => if x < y then true else if y < x then false else lexCompare xs ys

/-- `operator<` — `std::lexicographical_compare` over the element ranges. -/
def ltOp [LinearOrder α] (a b : SimpleVector α) : Bool := lexCompare a.elems b.elems

/-- `operator<=` — `!(rhs < lhs)`. -/
def leOp [LinearOrder α] (a b : SimpleVector α) : Bool := !ltOp b a

/-- `operator>` — `rhs < lhs`. -/
def gtOp [LinearOrder α] (a b : SimpleVector α) : Bool := ltOp b a

/-- `operator>=` — `!(lhs < rhs)`. -/
def geOp [LinearOrder α] (a b : SimpleVector α) : Bool := !ltOp a b

end Comparisons


namespace SimpleVector

/-- A mutating operation of the kind quantified over in the invariant
property of the spec: PushBack, Insert, Erase or PopBack, with its arguments. -/
inductive POp (α : Type) where
  | push : α → POp α
  | ins : Nat → α → POp α
  | er : Nat → POp α
  | pop : POp α

/-- Apply one operation to a vector; a failed Insert or Erase leaves the
vector in the state it had when the exception was thrown. -/
def applyPOp [Inhabited α] (v : SimpleVector α) : POp α → SimpleVector α
  | POp.push x => PushBack v x
  | POp.ins i x => (Insert v i x).1
  | POp.er i => (Erase v i).1
  | POp.pop => PopBack v

/-- Run a sequence of operations left to right. -/
def runPOps [Inhabited α] (v : SimpleVector α) (ops : List (POp α)) : SimpleVector α :=
  ops.foldl applyPOp v

end SimpleVector


/-! ### Buffer-identity model for deep-copy isolation

The pure model above erases pointer identity, so it cannot express that the
fresh `make_unique` allocation of the copy constructor shares no storage with the
source. The model below makes allocation explicit: a heap is the list of all
buffers ever allocated, in allocation order, and a vector holds the index of
the buffer it owns. Every operation of `SimpleVector` either leaves the heap
alone, overwrites the buffer owned by the vector in place, or allocates a brand-new
buffer at the end of the heap — exactly mirroring where the C++ code calls
`std::make_unique`. -/

/-- A dynamic array whose buffer lives in an explicit heap: logical size,
recorded capacity, and the heap index of the owned buffer. -/
structure HVec where
  size : Nat
  capacity : Nat
  buf : Nat
  deriving Repr, DecidableEq

/-- The heap: buffer `i` is the `i`-th buffer ever allocated. -/
abbrev Heap (α : Type) := List (List α)

/-- Read a buffer from the heap. -/
def readBuf {α : Type} (h : Heap α) (i : Nat) : List α := h.getD i []

/-- Overwrite a buffer in place. -/
def writeBuf {α : Type} (h : Heap α) (i : Nat) (b : List α) : Heap α := h.set i b

/-- The pure-model view of a heap vector: its fields plus the contents of the
buffer it owns. -/
def hview {α : Type} (h : Heap α) (v : HVec) : SimpleVector α :=
  ⟨v.size, v.capacity, readBuf h v.buf⟩

/-- `PushBack` in the heap model: growth allocates a fresh buffer (as
`make_unique` does); otherwise the write goes into the owned buffer. -/
def hPushBack {α : Type} [Inhabited α] (h : Heap α) (v : HVec) (x : α) : Heap α × HVec :=
  let b := readBuf h v.buf
  if v.size = v.capacity then
    let newCapacity := if v.capacity ≠ 0 then v.capacity * 2 else 1
    let nb := (b.take v.size ++ List.replicate (newCapacity - v.size) default).set v.size x
    (h ++ [nb], ⟨v.size + 1, newCapacity, h.length⟩)
  else
    (writeBuf h v.buf (b.set v.size x), ⟨v.size + 1, v.capacity, v.buf⟩)

/-- `Insert` in the heap model (state effect only). -/
def hInsert {α : Type} [Inhabited α] (h : Heap α) (v : HVec) (index : Nat) (x : α) :
    Heap α × HVec :=
  if index > v.size then (h, v)
  else
    let b := readBuf h v.buf
    if v.size = v.capacity then
      let newCapacity := if v.capacity ≠ 0 then v.capacity * 2 else 1
      let nb := b.take index ++ [x] ++ (b.drop index).take (v.size - index) ++
                List.replicate (newCapacity - v.size - 1) default
      (h ++ [nb], ⟨v.size + 1, newCapacity, h.length⟩)
    else
      (writeBuf h v.buf ((SimpleVector.shiftRightLoop b index v.size).set index x),
       ⟨v.size + 1, v.capacity, v.buf⟩)

/-- `Erase` in the heap model (state effect only). -/
def hErase {α : Type} [Inhabited α] (h : Heap α) (v : HVec) (index : Nat) :
    Heap α × HVec :=
  if index ≥ v.size then (h, v)
  else
    (writeBuf h v.buf (SimpleVector.shiftLeftLoop (readBuf h v.buf) (v.size - 1) index),
     ⟨v.size - 1, v.capacity, v.buf⟩)

/-- `PopBack` in the heap model. -/
def hPopBack {α : Type} (h : Heap α) (v : HVec) : Heap α × HVec :=
  if v.size = 0 then (h, v) else (h, ⟨v.size - 1, v.capacity, v.buf⟩)

/-- `Clear` in the heap model. -/
def hClear {α : Type} (h : Heap α) (v : HVec) : Heap α × HVec :=
  (h, ⟨0, v.capacity, v.buf⟩)

/-- `Reserve` in the heap model: growth allocates a fresh buffer. -/
def hReserve {α : Type} [Inhabited α] (h : Heap α) (v : HVec) (newCapacity : Nat) :
    Heap α × HVec :=
  if newCapacity > v.capacity then
    (h ++ [(readBuf h v.buf).take v.size ++ List.replicate (newCapacity - v.size) default],
     ⟨v.size, newCapacity, h.length⟩)
  else (h, v)

/-- `Resize` in the heap model. -/
def hResize {α : Type} [Inhabited α] (h : Heap α) (v : HVec) (newSize : Nat) :
    Heap α × HVec :=
  if newSize < v.size then (h, ⟨newSize, v.capacity, v.buf⟩)
  else if newSize > v.size then
    let p := if newSize > v.capacity then hReserve h v newSize else (h, v)
    (writeBuf p.1 p.2.buf (SimpleVector.fillLoop (readBuf p.1 p.2.buf) newSize v.size),
     ⟨newSize, p.2.capacity, p.2.buf⟩)
  else (h, v)

/-- The copy constructor in the heap model: a fresh buffer of `capacity_`
value-initialised slots receives the first `size_` elements of the source. -/
def hCopyConstruct {α : Type} [Inhabited α] (h : Heap α) (a : HVec) : Heap α × HVec :=
  (h ++ [(readBuf h a.buf).take a.size ++ List.replicate (a.capacity - a.size) default],
   ⟨a.size, a.capacity, h.length⟩)

/-- A mutating operation on a heap vector. -/
inductive HOp (α : Type) where
  | push : α → HOp α
  | pop : HOp α
  | ins : Nat → α → HOp α
  | er : Nat → HOp α
  | clear : HOp α
  | reserve : Nat → HOp α
  | resize : Nat → HOp α

/-- Apply one heap-model operation. -/
def applyHOp {α : Type} [Inhabited α] (p : Heap α × HVec) : HOp α → Heap α × HVec
  | HOp.push x => hPushBack p.1 p.2 x
  | HOp.pop => hPopBack p.1 p.2
  | HOp.ins i x => hInsert p.1 p.2 i x
  | HOp.er i => hErase p.1 p.2 i
  | HOp.clear => hClear p.1 p.2
  | HOp.reserve n => hReserve p.1 p.2 n
  | HOp.resize n => hResize p.1 p.2 n

/-- Run a sequence of heap-model operations left to right. -/
def runHOps {α : Type} [Inhabited α] (p : Heap α × HVec) (ops : List (HOp α)) :
    Heap α × HVec :=
  ops.foldl applyHOp p


namespace SimpleVector

variable {α : Type}

theorem shiftRightLoop_getElem? [Inhabited α] (index : Nat) :
    ∀ (i : Nat) (b : List α), i < b.length →
      ∀ j, (shiftRightLoop b index i)[j]? =
        if index < j ∧ j ≤ i then b[j - 1]? else b[j]? := by
  intro i
  induction i using Nat.strong_induction_on with
  | _ i ih =>
    intro b hb j
    unfold shiftRightLoop
    split
    · rename_i h
      rw [ih (i - 1) (by omega) _ (by simp; omega) j]
      by_cases hj1 : index < j ∧ j ≤ i - 1
      · rw [if_pos hj1, if_pos (by omega)]
        rw [List.getElem?_set]
        rw [if_neg (by omega)]
      · rw [if_neg hj1]
        by_cases hj2 : j = i
        · subst hj2
          rw [List.getElem?_set, if_pos rfl, if_pos hb, if_pos (by omega)]
          rw [List.getD_eq_getElem?_getD, List.getElem?_eq_getElem (by omega)]
          rfl
        · rw [List.getElem?_set, if_neg (by omega), if_neg (by omega)]
    · rename_i h
      rw [if_neg (by omega)]

theorem shiftLeftLoop_getElem? [Inhabited α] (stop : Nat) :
    ∀ (fuel i : Nat) (b : List α), stop - i ≤ fuel → stop < b.length →
      ∀ j, (shiftLeftLoop b stop i)[j]? =
        if i ≤ j ∧ j < stop then b[j + 1]? else b[j]? := by
  intro fuel
  induction fuel with
  | zero =>
    intro i b hf hb j
    unfold shiftLeftLoop
    rw [dif_neg (by omega)]
    rw [if_neg (by omega)]
  | succ m ih =>
    intro i b hf hb j
    unfold shiftLeftLoop
    split
    · rename_i h
      rw [ih (i + 1) _ (by omega) (by simp; omega) j]
      by_cases hj1 : i + 1 ≤ j ∧ j < stop
      · rw [if_pos hj1, if_pos (by omega)]
        rw [List.getElem?_set, if_neg (by omega)]
      · rw [if_neg hj1]
        by_cases hj2 : j = i
        · subst hj2
          rw [List.getElem?_set, if_pos rfl, if_pos (by omega), if_pos (by omega)]
          rw [List.getD_eq_getElem?_getD, List.getElem?_eq_getElem (by omega)]
          rfl
        · rw [List.getElem?_set, if_neg (by omega), if_neg (by omega)]
    · rename_i h
      rw [if_neg (by omega)]

theorem shiftRightLoop_length [Inhabited α] (index : Nat) :
    ∀ (i : Nat) (b : List α), (shiftRightLoop b index i).length = b.length := by
  intro i
  induction i using Nat.strong_induction_on with
  | _ i ih =>
    intro b
    unfold shiftRightLoop
    split
    · rw [ih (i - 1) (by omega)]
      simp
    · rfl

/-- Pointwise description of the element sequence claimed by the spec for
`Insert`: the first `index` old elements, then the value, then the rest. -/
theorem insertTarget_getElem? (b : List α) (s index : Nat) (x : α)
    (hidx : index ≤ s) (hs : s ≤ b.length) (n : Nat) :
    ((b.take s).take index ++ x :: (b.take s).drop index)[n]? =
      (if n < index then b[n]? else if n = index then some x
       else if n ≤ s then b[n - 1]? else none) := by
  have hlt : (List.take index (List.take s b)).length = index := by
    simp only [List.length_take]; omega
  by_cases h1 : n < index
  · rw [List.getElem?_append_left (by rw [hlt]; omega)]
    rw [List.getElem?_take, if_pos h1, List.getElem?_take, if_pos (by omega), if_pos h1]
  · rw [List.getElem?_append_right (by rw [hlt]; omega), hlt]
    by_cases h2 : n = index
    · subst h2
      simp [lt_irrefl]
    · rw [List.getElem?_cons, if_neg (by omega), List.getElem?_drop, List.getElem?_take]
      by_cases h3 : n ≤ s
      · rw [if_pos (by omega), if_neg h1, if_neg h2, if_pos h3]
        congr 1
        omega
      · rw [if_neg (by omega), if_neg h1, if_neg h2, if_neg h3]

theorem insert_elems [Inhabited α] (v : SimpleVector α) (index : Nat) (x : α)
    (hwf : v.wf) (hidx : index ≤ v.size) :
    (Insert v index x).1.elems = v.elems.take index ++ x :: v.elems.drop index := by
  obtain ⟨hsc, hlen⟩ := hwf
  unfold Insert
  rw [if_neg (by omega)]
  by_cases hfull : v.size = v.capacity
  · rw [if_pos hfull]
    have hcap1 : v.size + 1 ≤ (if v.capacity ≠ 0 then v.capacity * 2 else 1) := by
      split <;> omega
    apply List.ext_getElem?
    intro n
    simp only [elems]
    rw [insertTarget_getElem? v.items v.size index x hidx (by omega)]
    have la : (v.items.take index).length = index := by
      simp only [List.length_take]; omega
    have lab : (v.items.take index ++ [x]).length = index + 1 := by
      simp only [List.length_append, la, List.length_cons, List.length_nil]
    have lc : ((v.items.drop index).take (v.size - index)).length = v.size - index := by
      simp only [List.length_take, List.length_drop]; omega
    have labc : ((v.items.take index ++ [x]) ++
        (v.items.drop index).take (v.size - index)).length = v.size + 1 := by
      simp only [List.length_append, lab, lc]; omega
    rw [List.getElem?_take]
    by_cases hn : n < v.size + 1
    · rw [if_pos hn, List.getElem?_append_left (by rw [labc]; omega)]
      by_cases h1 : n < index
      · rw [List.getElem?_append_left (by rw [lab]; omega),
          List.getElem?_append_left (by rw [la]; omega),
          List.getElem?_take, if_pos h1, if_pos h1]
      · by_cases h2 : n = index
        · subst h2
          rw [List.getElem?_append_left (by rw [lab]; omega),
            List.getElem?_append_right (by rw [la]), la]
          simp [lt_irrefl]
        · rw [List.getElem?_append_right (by rw [lab]; omega), lab,
            List.getElem?_take, if_pos (by omega), List.getElem?_drop,
            if_neg h1, if_neg h2, if_pos (by omega)]
          congr 1
          omega
    · rw [if_neg hn, if_neg (by omega), if_neg (by omega), if_neg (by omega)]
  · rw [if_neg hfull]
    apply List.ext_getElem?
    intro n
    simp only [elems]
    rw [insertTarget_getElem? v.items v.size index x hidx (by omega)]
    rw [List.getElem?_take]
    by_cases hn : n < v.size + 1
    · rw [if_pos hn, List.getElem?_set]
      by_cases h2 : index = n
      · rw [if_pos h2, if_pos (by rw [shiftRightLoop_length]; omega)]
        rw [if_neg (by omega), if_pos (by omega)]
      · rw [if_neg h2,
          shiftRightLoop_getElem? index v.size v.items (by omega) n]
        by_cases h1 : n < index
        · rw [if_neg (by omega), if_pos h1]
        · rw [if_pos (by omega), if_neg h1, if_neg (by omega), if_pos (by omega)]
    · rw [if_neg hn, if_neg (by omega), if_neg (by omega), if_neg (by omega)]

end SimpleVector


namespace SimpleVector

theorem erase_elems [Inhabited α] (v : SimpleVector α) (index : Nat)
    (hwf : v.wf) (hidx : index < v.size) :
    (Erase v index).1.elems = v.elems.take index ++ v.elems.drop (index + 1) := by
  obtain ⟨hsc, hlen⟩ := hwf
  unfold Erase
  rw [if_neg (by omega)]
  apply List.ext_getElem?
  intro n
  simp only [elems]
  have hlt : (List.take index (List.take v.size v.items)).length = index := by
    simp only [List.length_take]; omega
  rw [List.getElem?_take]
  by_cases hn : n < v.size - 1
  · rw [if_pos hn,
      shiftLeftLoop_getElem? (v.size - 1) (v.size - 1) index v.items (by omega) (by omega) n]
    by_cases h1 : n < index
    · rw [if_neg (by omega), List.getElem?_append_left (by rw [hlt]; omega),
        List.getElem?_take, if_pos h1, List.getElem?_take, if_pos (by omega)]
    · rw [if_pos (by omega), List.getElem?_append_right (by rw [hlt]; omega), hlt,
        List.getElem?_drop, List.getElem?_take, if_pos (by omega)]
      congr 1
      omega
  · rw [if_neg hn]
    symm
    rw [List.getElem?_eq_none_iff]
    simp only [List.length_append, List.length_take, List.length_drop]
    omega

theorem pushBack_elems [Inhabited α] (v : SimpleVector α) (x : α)
    (hwf : v.wf) :
    (PushBack v x).elems = v.elems ++ [x] := by
  obtain ⟨hsc, hlen⟩ := hwf
  unfold PushBack
  by_cases hfull : v.size = v.capacity
  · rw [if_pos hfull]
    apply List.ext_getElem?
    intro n
    simp only [elems]
    have hcap1 : v.size + 1 ≤ (if v.capacity ≠ 0 then v.capacity * 2 else 1) := by
      split <;> omega
    have la : (v.items.take v.size).length = v.size := by
      simp only [List.length_take]; omega
    have lset : ((v.items.take v.size ++
        List.replicate ((if v.capacity ≠ 0 then v.capacity * 2 else 1) - v.size)
          default).set v.size x).length =
        (if v.capacity ≠ 0 then v.capacity * 2 else 1) := by
      simp only [List.length_set, List.length_append, la, List.length_replicate]
      omega
    rw [List.getElem?_take]
    by_cases hn : n < v.size + 1
    · rw [if_pos hn, List.getElem?_set]
      by_cases h1 : n = v.size
      · subst h1
        rw [if_pos rfl, if_pos (by rw [List.length_set] at lset; omega)]
        rw [List.getElem?_append_right (by rw [la])]
        simp [la]
      · rw [if_neg (by omega), List.getElem?_append_left (by rw [la]; omega),
          List.getElem?_append_left (by rw [la]; omega)]
    · rw [if_neg hn]
      symm
      rw [List.getElem?_eq_none_iff]
      simp only [List.length_append, List.length_take, List.length_cons, List.length_nil]
      omega
  · rw [if_neg hfull]
    apply List.ext_getElem?
    intro n
    simp only [elems]
    rw [List.getElem?_take]
    by_cases hn : n < v.size + 1
    · rw [if_pos hn, List.getElem?_set]
      by_cases h1 : n = v.size
      · subst h1
        have la2 : (v.items.take v.size).length = v.size := by
          simp only [List.length_take]; omega
        rw [if_pos rfl, if_pos (by omega)]
        rw [List.getElem?_append_right (le_of_eq la2), la2]
        simp
      · rw [if_neg (by omega), List.getElem?_append_left
          (by simp only [List.length_take]; omega), List.getElem?_take, if_pos (by omega)]
    · rw [if_neg hn]
      symm
      rw [List.getElem?_eq_none_iff]
      simp only [List.length_append, List.length_take, List.length_cons, List.length_nil]
      omega

end SimpleVector


theorem stdEqual_iff {α : Type} [DecidableEq α] :
    ∀ (xs ys : List α), xs.length = ys.length → (stdEqual xs ys = true ↔ xs = ys) := by
  intro xs
  induction xs with
  | nil =>
    intro ys h
    cases ys with
    | nil => simp [stdEqual]
    | cons y ys => simp at h
  | cons x xs ih =>
    intro ys h
    cases ys with
    | nil => simp at h
    | cons y ys =>
      simp only [stdEqual]
      by_cases hxy : x = y
      · subst hxy
        rw [if_pos rfl, ih ys (by simpa using h)]
        simp
      · rw [if_neg hxy]
        simp [hxy]

theorem lexCompare_iff_lex {α : Type} [LinearOrder α] :
    ∀ (xs ys : List α), lexCompare xs ys = true ↔ List.Lex (· < ·) xs ys := by
  intro xs
  induction xs with
  | nil =>
    intro ys
    cases ys with
    | nil => simp [lexCompare]
    | cons y ys => simp [lexCompare]; exact List.Lex.nil
  | cons x xs ih =>
    intro ys
    cases ys with
    | nil => simp [lexCompare]
    | cons y ys =>
      simp only [lexCompare]
      by_cases h1 : x < y
      · simp only [if_pos h1]
        constructor
        · intro _; exact List.Lex.rel h1
        · intro _; trivial
      · rw [if_neg h1]
        by_cases h2 : y < x
        · simp only [if_pos h2]
          constructor
          · intro hf; cases hf
          · intro hlex
            cases hlex with
            | cons htail => exact absurd h2 (lt_irrefl _)
            | rel hr => exact absurd hr h1
        · rw [if_neg h2, ih ys]
          have hxy : x = y := le_antisymm (le_of_not_lt h2) (le_of_not_lt h1)
          subst hxy
          constructor
          · exact List.Lex.cons
          · intro hlex
            cases hlex with
            | cons htail => exact htail
            | rel hr => exact absurd hr h1

theorem lexCompare_self_append {α : Type} [LinearOrder α] :
    ∀ (xs t : List α), t ≠ [] → lexCompare xs (xs ++ t) = true := by
  intro xs
  induction xs with
  | nil =>
    intro t ht
    cases t with
    | nil => exact absurd rfl ht
    | cons y ys => simp [lexCompare]
  | cons x xs ih =>
    intro t ht
    simp only [List.cons_append, lexCompare, lt_irrefl, if_neg]
    exact ih t ht


theorem readBuf_writeBuf_ne {α : Type} (h : Heap α) (i j : Nat) (b : List α)
    (hij : i ≠ j) : readBuf (writeBuf h j b) i = readBuf h i := by
  simp only [readBuf, writeBuf, List.getD_eq_getElem?_getD]
  rw [List.getElem?_set_ne (Ne.symm hij)]

theorem readBuf_append {α : Type} (h : Heap α) (l : List (List α)) (i : Nat)
    (hi : i < h.length) : readBuf (h ++ l) i = readBuf h i := by
  simp only [readBuf, List.getD_eq_getElem?_getD]
  rw [List.getElem?_append_left hi]

/-- One operation applied to a vector that does not own buffer `a.buf` never
changes buffer `a.buf`, never unallocates it, and never hands it to the
operated-on vector. -/
theorem applyHOp_isolated {α : Type} [Inhabited α] (a : HVec) (p : Heap α × HVec)
    (op : HOp α) (ha : a.buf < p.1.length) (hne : p.2.buf ≠ a.buf) :
    readBuf (applyHOp p op).1 a.buf = readBuf p.1 a.buf ∧
    a.buf < (applyHOp p op).1.length ∧
    (applyHOp p op).2.buf ≠ a.buf := by
  cases op with
  | push x =>
    simp only [applyHOp]
    unfold hPushBack
    split
    · exact ⟨readBuf_append _ _ _ ha, by simp; omega, by simp; omega⟩
    · exact ⟨readBuf_writeBuf_ne _ _ _ _ (Ne.symm hne), by simp [writeBuf]; omega, hne⟩
  | pop =>
    simp only [applyHOp]
    unfold hPopBack
    split
    · exact ⟨rfl, ha, hne⟩
    · exact ⟨rfl, ha, hne⟩
  | ins i x =>
    simp only [applyHOp]
    unfold hInsert
    split
    · exact ⟨rfl, ha, hne⟩
    · split
      · exact ⟨readBuf_append _ _ _ ha, by simp; omega, by simp; omega⟩
      · exact ⟨readBuf_writeBuf_ne _ _ _ _ (Ne.symm hne), by simp [writeBuf]; omega, hne⟩
  | er i =>
    simp only [applyHOp]
    unfold hErase
    split
    · exact ⟨rfl, ha, hne⟩
    · exact ⟨readBuf_writeBuf_ne _ _ _ _ (Ne.symm hne), by simp [writeBuf]; omega, hne⟩
  | clear =>
    simp only [applyHOp, hClear]
    exact ⟨trivial, ha, hne⟩
  | reserve n =>
    simp only [applyHOp]
    unfold hReserve
    split
    · exact ⟨readBuf_append _ _ _ ha, by simp; omega, by simp; omega⟩
    · exact ⟨rfl, ha, hne⟩
  | resize n =>
    simp only [applyHOp]
    unfold hResize
    split
    · exact ⟨rfl, ha, hne⟩
    · split
      · have hres : readBuf (if n > p.2.capacity then hReserve p.1 p.2 n else (p.1, p.2)).1 a.buf
            = readBuf p.1 a.buf ∧
            a.buf < (if n > p.2.capacity then hReserve p.1 p.2 n else (p.1, p.2)).1.length ∧
            (if n > p.2.capacity then hReserve p.1 p.2 n else (p.1, p.2)).2.buf ≠ a.buf := by
          by_cases hc : n > p.2.capacity
          · rw [if_pos hc]
            unfold hReserve
            rw [if_pos hc]
            exact ⟨readBuf_append _ _ _ ha, by simp; omega, by simp; omega⟩
          · rw [if_neg hc]
            exact ⟨rfl, ha, hne⟩
        refine ⟨?_, ?_, hres.2.2⟩
        · rw [readBuf_writeBuf_ne _ _ _ _ (Ne.symm hres.2.2)]
          exact hres.1
        · simp only [writeBuf, List.length_set]
          exact hres.2.1
      · exact ⟨rfl, ha, hne⟩

/-- Running any sequence of operations on a vector that does not own buffer
`a.buf` leaves the contents of that buffer unchanged. -/
theorem runHOps_isolated {α : Type} [Inhabited α] (a : HVec) :
    ∀ (ops : List (HOp α)) (p : Heap α × HVec),
      a.buf < p.1.length → p.2.buf ≠ a.buf →
      readBuf (runHOps p ops).1 a.buf = readBuf p.1 a.buf := by
  intro ops
  induction ops with
  | nil => intro p _ _; rfl
  | cons op rest ih =>
    intro p ha hne
    obtain ⟨h1, h2, h3⟩ := applyHOp_isolated a p op ha hne
    show readBuf (runHOps (applyHOp p op) rest).1 a.buf = _
    rw [ih (applyHOp p op) h2 h3, h1]

theorem stdEqual_refl {α : Type} [DecidableEq α] : ∀ (xs : List α), stdEqual xs xs = true := by
  intro xs
  induction xs with
  | nil => rfl
  | cons x xs ih => simp [stdEqual, ih]


theorem readBuf_append_self {α : Type} (h : Heap α) (b : List α) :
    readBuf (h ++ [b]) h.length = b := by
  simp only [readBuf, List.getD_eq_getElem?_getD]
  rw [List.getElem?_append_right (le_refl _), Nat.sub_self]
  rfl

theorem take_append_replicate {α : Type} (b : List α) (s c : Nat) (d : α)
    (hs : s ≤ b.length) : (b.take s ++ List.replicate c d).take s = b.take s := by
  rw [List.take_append_eq_append_take]
  have h1 : (b.take s).length = s := by simp only [List.length_take]; omega
  rw [h1, Nat.sub_self, List.take_zero, List.append_nil, List.take_take, Nat.min_self]


namespace SimpleVector

/-- C2: for every well-formed array and every index with `index <= size`,
`Insert` returns the position `index` of the inserted element, increments the
size by one, produces the element sequence
`(first index elements) ++ [value] ++ (remaining elements)`, and grows the
capacity to `capacity == 0 ? 1 : 2*capacity` exactly when `size == capacity`
on entry (otherwise the capacity is unchanged and the tail is shifted one
slot rightward). Both the copy and the move overload of the source have this
single model, since they differ only in copying versus moving elements. -/
theorem insert_spec (v : SimpleVector Int) (index : Nat) (x : Int)
    (hwf : v.wf) (hidx : index ≤ v.size) :
    (Insert v index x).2 = Except.ok index ∧
    (Insert v index x).1.size = v.size + 1 ∧
    (Insert v index x).1.elems = v.elems.take index ++ x :: v.elems.drop index ∧
    (Insert v index x).1.capacity =
      (if v.size = v.capacity then (if v.capacity = 0 then 1 else 2 * v.capacity)
       else v.capacity) := by
  refine ⟨?_, ?_, insert_elems v index x hwf hidx, ?_⟩
  · unfold Insert
    rw [if_neg (by omega)]
    split <;> rfl
  · unfold Insert
    rw [if_neg (by omega)]
    split <;> rfl
  · unfold Insert
    rw [if_neg (by omega)]
    by_cases hfull : v.size = v.capacity
    · rw [if_pos hfull, if_pos hfull]
      show (if v.capacity ≠ 0 then v.capacity * 2 else 1) = _
      by_cases hc : v.capacity = 0 <;> simp [hc] <;> omega
    · rw [if_neg hfull, if_neg hfull]

/-- C6: for every well-formed non-empty array and every `index < size`,
`Erase` removes the element at `index` by shifting `[index+1, size)` one slot
leftward, decrements the size, leaves the capacity unchanged and returns the
position `index`; erasing the last element leaves the same element content as
`PopBack`. -/
theorem erase_spec (v : SimpleVector Int) (index : Nat)
    (hwf : v.wf) (hidx : index < v.size) :
    (Erase v index).2 = Except.ok index ∧
    (Erase v index).1.size = v.size - 1 ∧
    (Erase v index).1.capacity = v.capacity ∧
    (Erase v index).1.elems = v.elems.take index ++ v.elems.drop (index + 1) ∧
    (index = v.size - 1 → (Erase v index).1.elems = (PopBack v).elems) := by
  refine ⟨?_, ?_, ?_, erase_elems v index hwf hidx, ?_⟩
  · unfold Erase; rw [if_neg (by omega)]
  · unfold Erase; rw [if_neg (by omega)]
  · unfold Erase; rw [if_neg (by omega)]
  · intro hlast
    rw [erase_elems v index hwf hidx]
    subst hlast
    unfold PopBack
    rw [if_neg (by omega)]
    have h1 : v.elems.drop (v.size - 1 + 1) = [] := by
      rw [List.drop_eq_nil_iff]
      simp only [elems, List.length_take]
      omega
    rw [h1, List.append_nil]
    simp only [elems, List.take_take]
    congr 1
    omega

/-- C4: for every well-formed array, `PushBack` appends the value at index
`size` and increments the size, leaving the first `size` elements unchanged;
when `size == capacity` on entry the capacity becomes 1 from 0 and doubles
otherwise, and when `size < capacity` the capacity is unchanged. -/
theorem pushBack_spec (v : SimpleVector Int) (x : Int) (hwf : v.wf) :
    (PushBack v x).size = v.size + 1 ∧
    (PushBack v x).elems = v.elems ++ [x] ∧
    (v.size = v.capacity →
      (PushBack v x).capacity = (if v.capacity = 0 then 1 else 2 * v.capacity)) ∧
    (v.size < v.capacity → (PushBack v x).capacity = v.capacity) := by
  refine ⟨?_, pushBack_elems v x hwf, ?_, ?_⟩
  · unfold PushBack; split <;> rfl
  · intro hfull
    unfold PushBack
    rw [if_pos hfull]
    show (if v.capacity ≠ 0 then v.capacity * 2 else 1) = _
    by_cases hc : v.capacity = 0 <;> simp [hc] <;> omega
  · intro hlt
    unfold PushBack
    rw [if_neg (by omega)]

/-- C10: `PopBack` on an empty array is a total, well-defined no-op: it
returns normally and leaves size, capacity and elements unchanged. -/
theorem popBack_empty_noop (v : SimpleVector Int) (h : v.size = 0) :
    PopBack v = v := by
  unfold PopBack
  rw [if_pos h]

/-- C3: `At` with `index >= size` (every size, including 0), `Insert` with a
position beyond one-past-the-end, and `Erase` with a position at or beyond
the end each signal a distinguishable out-of-range failure, and whenever such
a failure is signaled the state of the array is unchanged (the source throws
before any mutation). -/
theorem out_of_range_failures (v : SimpleVector Int) (index : Nat) (x : Int) :
    (At v index = Except.error "Index out of range" ↔ v.size ≤ index) ∧
    ((Insert v index x).2 = Except.error "Insert: position out of range" ↔ v.size < index) ∧
    (v.size < index → (Insert v index x).1 = v) ∧
    ((Erase v index).2 = Except.error "Index out of range" ↔ v.size ≤ index) ∧
    (v.size ≤ index → (Erase v index).1 = v) := by
  refine ⟨?_, ?_, ?_, ?_, ?_⟩
  · unfold At
    by_cases h : index ≥ v.size
    · rw [if_pos h]; simp; omega
    · rw [if_neg h]; simp; omega
  · unfold Insert
    by_cases h : index > v.size
    · rw [if_pos h]; simp; omega
    · rw [if_neg h]
      by_cases h2 : v.size = v.capacity
      · rw [if_pos h2]; simp; omega
      · rw [if_neg h2]; simp; omega
  · intro h
    unfold Insert
    rw [if_pos (by omega)]
  · unfold Erase
    by_cases h : index ≥ v.size
    · rw [if_pos h]; simp; omega
    · rw [if_neg h]; simp; omega
  · intro h
    unfold Erase
    rw [if_pos (by omega)]

/-- C5: move construction and move assignment (between distinct objects)
leave the source in the empty state (`size == 0` and `capacity == 0`) and the
destination holding exactly the prior size, capacity and element sequence of
the source. -/
theorem move_transfer_spec (v w : SimpleVector Int) :
    (moveConstruct v).2.size = 0 ∧ (moveConstruct v).2.capacity = 0 ∧
    (moveConstruct v).1.size = v.size ∧ (moveConstruct v).1.capacity = v.capacity ∧
    (moveConstruct v).1.elems = v.elems ∧
    (moveAssign w v).2.size = 0 ∧ (moveAssign w v).2.capacity = 0 ∧
    (moveAssign w v).1.size = v.size ∧ (moveAssign w v).1.capacity = v.capacity ∧
    (moveAssign w v).1.elems = v.elems :=
  ⟨rfl, rfl, rfl, rfl, rfl, rfl, rfl, rfl, rfl, rfl⟩

end SimpleVector


namespace SimpleVector

theorem applyPOp_size_le [Inhabited α] (v : SimpleVector α) (op : POp α)
    (h : v.size ≤ v.capacity) :
    (applyPOp v op).size ≤ (applyPOp v op).capacity := by
  cases op with
  | push x =>
    show (PushBack v x).size ≤ (PushBack v x).capacity
    unfold PushBack
    split
    · show v.size + 1 ≤ (if v.capacity ≠ 0 then v.capacity * 2 else 1)
      split <;> omega
    · show v.size + 1 ≤ v.capacity
      omega
  | ins i x =>
    show (Insert v i x).1.size ≤ (Insert v i x).1.capacity
    unfold Insert
    split
    · exact h
    · split
      · show v.size + 1 ≤ (if v.capacity ≠ 0 then v.capacity * 2 else 1)
        split <;> omega
      · show v.size + 1 ≤ v.capacity
        omega
  | er i =>
    show (Erase v i).1.size ≤ (Erase v i).1.capacity
    unfold Erase
    split
    · exact h
    · show v.size - 1 ≤ v.capacity
      omega
  | pop =>
    show (PopBack v).size ≤ (PopBack v).capacity
    unfold PopBack
    split
    · exact h
    · show v.size - 1 ≤ v.capacity
      omega

/-- C8: starting from any state satisfying `size <= capacity` (which every
constructor establishes, as the remaining conjuncts show), every sequence of
PushBack, Insert, Erase and PopBack operations preserves `size <= capacity`
after every operation, including on the failure paths of Insert and Erase. -/
theorem size_le_capacity_invariant (v : SimpleVector Int) (ops : List (POp Int))
    (h : v.size ≤ v.capacity) :
    (runPOps v ops).size ≤ (runPOps v ops).capacity ∧
    (mkDefault : SimpleVector Int).size ≤ (mkDefault : SimpleVector Int).capacity ∧
    (∀ n : Nat, (mkSized n : SimpleVector Int).size ≤ (mkSized n : SimpleVector Int).capacity) ∧
    (∀ (n : Nat) (x : Int), (mkFilled n x).size ≤ (mkFilled n x).capacity) ∧
    (∀ l : List Int, (mkFromList l).size ≤ (mkFromList l).capacity) ∧
    (∀ k : Nat, (mkReserveHint k : SimpleVector Int).size ≤ (mkReserveHint k : SimpleVector Int).capacity) := by
  refine ⟨?_, le_refl 0, ?_, ?_, ?_, ?_⟩
  · induction ops generalizing v with
    | nil => exact h
    | cons op rest ih =>
      show (runPOps (applyPOp v op) rest).size ≤ (runPOps (applyPOp v op) rest).capacity
      exact ih _ (applyPOp_size_le v op h)
  · intro n; unfold mkSized; split <;> simp [mkDefault]
  · intro n x; unfold mkFilled; split <;> simp [mkDefault]
  · intro l; exact le_refl _
  · intro k; exact Nat.zero_le k

/-- C1 (violation exhibited): the claim states that after every public
operation the capacity field equals the number of slots actually allocated.
Copy assignment breaks it: assigning from a reachable vector with
`size == 1` and `capacity == 2` (built by two pushes and a pop) produces a
state whose capacity field is 2 while its buffer holds only 1 slot, because
the source overwrites the `capacity_` field of its size-sized temporary
without reallocating. -/
theorem copyAssign_capacity_exceeds_allocation :
    (PopBack (PushBack (PushBack (mkDefault : SimpleVector Int) 1) 2)).size = 1 ∧
    (PopBack (PushBack (PushBack (mkDefault : SimpleVector Int) 1) 2)).capacity = 2 ∧
    (PopBack (PushBack (PushBack (mkDefault : SimpleVector Int) 1) 2)).items.length = 2 ∧
    (copyAssign mkDefault
      (PopBack (PushBack (PushBack (mkDefault : SimpleVector Int) 1) 2))).capacity = 2 ∧
    (copyAssign mkDefault
      (PopBack (PushBack (PushBack (mkDefault : SimpleVector Int) 1) 2))).items.length = 1 := by
  decide

end SimpleVector


/-- C9: equality compares sizes and then performs an element-wise equality
scan; the ordering operators implement strict lexicographic comparison over
the elements, under which a shorter array that is a strict proper prefix of a
longer one is ordered before it; `!=`, `<=`, `>`, `>=` are the stated
combinations of `==` and `<`; in particular `[1,2] < [1,2,3]`,
`[1,3] > [1,2,9]` and `[1,2] == [1,2]`. -/
theorem comparison_spec (a b : SimpleVector Int) (hwa : a.wf) (hwb : b.wf) :
    (eqOp a b = true ↔ (a.size = b.size ∧ a.elems = b.elems)) ∧
    (ltOp a b = true ↔ List.Lex (· < ·) a.elems b.elems) ∧
    (neOp a b = !eqOp a b) ∧ (gtOp a b = ltOp b a) ∧
    (leOp a b = !ltOp b a) ∧ (geOp a b = !ltOp a b) ∧
    (∀ t : List Int, t ≠ [] → b.elems = a.elems ++ t → ltOp a b = true) ∧
    ltOp (SimpleVector.mkFromList [1, 2] : SimpleVector Int) (SimpleVector.mkFromList [1, 2, 3]) = true ∧
    gtOp (SimpleVector.mkFromList [1, 3] : SimpleVector Int) (SimpleVector.mkFromList [1, 2, 9]) = true ∧
    eqOp (SimpleVector.mkFromList [1, 2] : SimpleVector Int) (SimpleVector.mkFromList [1, 2]) = true := by
  obtain ⟨hsa, hla⟩ := hwa
  obtain ⟨hsb, hlb⟩ := hwb
  refine ⟨?_, lexCompare_iff_lex a.elems b.elems, rfl, rfl, rfl, rfl, ?_, ?_, ?_, ?_⟩
  · unfold eqOp
    by_cases hsz : a.GetSize = b.GetSize
    · rw [if_neg (by simpa using hsz)]
      rw [stdEqual_iff a.elems b.elems]
      · constructor
        · intro he; exact ⟨hsz, he⟩
        · intro he; exact he.2
      · simp only [SimpleVector.elems, List.length_take]
        simp only [SimpleVector.GetSize] at hsz
        omega
    · rw [if_pos (by simpa using hsz)]
      simp only [SimpleVector.GetSize] at hsz
      constructor
      · intro hf; cases hf
      · intro he; exact absurd he.1 hsz
  · intro t ht he
    unfold ltOp
    rw [he]
    exact lexCompare_self_append a.elems t ht
  · decide
  · decide
  · decide


/-- C7: in the buffer-identity model, a copy-constructed array compares
equal to its source under `operator==`, its capacity equals the capacity of
the source (not its size), its buffer is a distinct allocation, and
subsequently running any sequence of mutating operations on the copy never
changes the size, capacity or elements of the original. -/
theorem copy_construct_isolation (h : Heap Int) (a : HVec) (ops : List (HOp Int))
    (ha : a.buf < h.length) (hsz : a.size ≤ (readBuf h a.buf).length) :
    eqOp (hview (hCopyConstruct h a).1 (hCopyConstruct h a).2)
         (hview (hCopyConstruct h a).1 a) = true ∧
    (hCopyConstruct h a).2.capacity = a.capacity ∧
    (hCopyConstruct h a).2.buf ≠ a.buf ∧
    (hview (runHOps (hCopyConstruct h a) ops).1 a).size = (hview h a).size ∧
    (hview (runHOps (hCopyConstruct h a) ops).1 a).capacity = (hview h a).capacity ∧
    (hview (runHOps (hCopyConstruct h a) ops).1 a).elems = (hview h a).elems := by
  refine ⟨?_, rfl, by simp only [hCopyConstruct]; omega, rfl, rfl, ?_⟩
  · unfold eqOp
    rw [if_neg (by simp [hCopyConstruct, hview, SimpleVector.GetSize])]
    have h1 : (hview (hCopyConstruct h a).1 (hCopyConstruct h a).2).elems
        = (readBuf h a.buf).take a.size := by
      simp only [hCopyConstruct, hview, SimpleVector.elems]
      rw [readBuf_append_self]
      exact take_append_replicate _ _ _ _ hsz
    have h2 : (hview (hCopyConstruct h a).1 a).elems = (readBuf h a.buf).take a.size := by
      simp only [hCopyConstruct, hview, SimpleVector.elems]
      rw [readBuf_append _ _ _ ha]
    rw [h1, h2]
    exact stdEqual_refl _
  · simp only [hview, SimpleVector.elems]
    have hrun := runHOps_isolated a ops (hCopyConstruct h a)
      (by simp only [hCopyConstruct]; simp; omega)
      (by simp only [hCopyConstruct]; omega)
    rw [hrun]
    simp only [hCopyConstruct]
    rw [readBuf_append _ _ _ ha]

theorem copy_construct_isolation_witness :
    (hview (runHOps (hCopyConstruct [[1, 2]] ⟨2, 2, 0⟩) [HOp.push 7, HOp.er 0]).1
      (⟨2, 2, 0⟩ : HVec)).elems = (hview ([[1, 2]] : Heap Int) ⟨2, 2, 0⟩).elems :=
  (copy_construct_isolation [[1, 2]] ⟨2, 2, 0⟩ [HOp.push 7, HOp.er 0]
    (by decide) (by decide)).2.2.2.2.2

namespace SimpleVector

theorem insert_spec_witness :
    (Insert (mkFromList ([1, 2, 3] : List Int)) 1 9).2 = Except.ok 1 ∧
    (Insert (mkFromList ([1, 2, 3] : List Int)) 1 9).1.size = 4 ∧
    (Insert (mkFromList ([1, 2, 3] : List Int)) 1 9).1.elems = [1, 9, 2, 3] ∧
    (Insert (mkFromList ([1, 2, 3] : List Int)) 1 9).1.capacity = 6 := by
  have h := insert_spec (mkFromList ([1, 2, 3] : List Int)) 1 9 (by decide) (by decide)
  exact ⟨h.1, h.2.1, h.2.2.1, h.2.2.2⟩

theorem erase_spec_witness :
    (Erase (mkFromList ([1, 2, 3] : List Int)) 0).1.elems = [2, 3] ∧
    (Erase (mkFromList ([1, 2, 3] : List Int)) 2).1.elems
      = (PopBack (mkFromList ([1, 2, 3] : List Int))).elems := by
  constructor
  · exact (erase_spec (mkFromList ([1, 2, 3] : List Int)) 0 (by decide) (by decide)).2.2.2.1
  · exact (erase_spec (mkFromList ([1, 2, 3] : List Int)) 2 (by decide) (by decide)).2.2.2.2
      (by decide)

theorem pushBack_spec_witness :
    (PushBack (mkFromList ([1, 2] : List Int)) 9).elems = [1, 2, 9] ∧
    (PushBack (mkFromList ([1, 2] : List Int)) 9).capacity = 4 ∧
    (PushBack (mkReserveHint 3 : SimpleVector Int) 5).capacity = 3 := by
  refine ⟨?_, ?_, ?_⟩
  · exact (pushBack_spec (mkFromList ([1, 2] : List Int)) 9 (by decide)).2.1
  · exact (pushBack_spec (mkFromList ([1, 2] : List Int)) 9 (by decide)).2.2.1 (by decide)
  · exact (pushBack_spec (mkReserveHint 3 : SimpleVector Int) 5 (by decide)).2.2.2 (by decide)

theorem out_of_range_failures_witness :
    At (mkFromList ([5] : List Int)) 2 = Except.error "Index out of range" ∧
    (Insert (mkFromList ([5] : List Int)) 2 0).1 = mkFromList [5] ∧
    (Erase (mkFromList ([5] : List Int)) 2).1 = mkFromList [5] ∧
    At (mkDefault : SimpleVector Int) 0 = Except.error "Index out of range" := by
  refine ⟨?_, ?_, ?_, ?_⟩
  · exact (out_of_range_failures (mkFromList ([5] : List Int)) 2 0).1.mpr (by decide)
  · exact (out_of_range_failures (mkFromList ([5] : List Int)) 2 0).2.2.1 (by decide)
  · exact (out_of_range_failures (mkFromList ([5] : List Int)) 2 0).2.2.2.2 (by decide)
  · exact (out_of_range_failures (mkDefault : SimpleVector Int) 0 0).1.mpr (by decide)

theorem popBack_empty_noop_witness :
    PopBack (mkDefault : SimpleVector Int) = mkDefault :=
  popBack_empty_noop mkDefault rfl

theorem size_le_capacity_invariant_witness :
    (runPOps (mkDefault : SimpleVector Int)
      [POp.push 1, POp.push 2, POp.ins 0 5, POp.er 1, POp.pop]).size ≤
    (runPOps (mkDefault : SimpleVector Int)
      [POp.push 1, POp.push 2, POp.ins 0 5, POp.er 1, POp.pop]).capacity :=
  (size_le_capacity_invariant mkDefault
    [POp.push 1, POp.push 2, POp.ins 0 5, POp.er 1, POp.pop] (by decide)).1

end SimpleVector

theorem comparison_spec_witness :
    ltOp (SimpleVector.mkFromList [1, 2] : SimpleVector Int) (SimpleVector.mkFromList [1, 2, 3]) = true ∧
    gtOp (SimpleVector.mkFromList [1, 3] : SimpleVector Int) (SimpleVector.mkFromList [1, 2, 9]) = true ∧
    eqOp (SimpleVector.mkFromList [1, 2] : SimpleVector Int) (SimpleVector.mkFromList [1, 2]) = true := by
  have h := comparison_spec (SimpleVector.mkFromList [1, 2] : SimpleVector Int) (SimpleVector.mkFromList [1, 2, 3])
    (by decide) (by decide)
  exact ⟨h.2.2.2.2.2.2.2.1, h.2.2.2.2.2.2.2.2.1, h.2.2.2.2.2.2.2.2.2⟩
